import Mathlib

/-!
# Verification of the libmedium proxy core (`src/proxy.rs`)

A shallow embedding of the content-transformation core of the libmedium
read-through proxy, together with proofs about the embedded definitions.

Strings are modelled as `List Char` (one entry per Unicode code point).
Rust's UTF-8 byte indexing is modelled explicitly: each character carries
its UTF-8 byte width (`lenUtf8`), and the byte-range slice `&s[a..b]`
becomes a partial function that fails (returns `none`, modelling a Rust
panic) whenever a byte index is out of range or does not fall on a
character boundary.
-/

namespace LibMedium

/-- Model of Rust `char::len_utf8`: the number of bytes of the UTF-8
encoding of a character (1 to 4, depending on the code point). -/
def lenUtf8 (c : Char) : Nat :=
  if c.toNat < 128 then 1
  else if c.toNat < 2048 then 2
  else if c.toNat < 65536 then 3
  else 4

theorem lenUtf8_pos (c : Char) : 0 < lenUtf8 c := by
  unfold lenUtf8
  split
  · omega
  split
  · omega
  split
  · omega
  · omega

/-- Total UTF-8 byte length of a string (Rust `str::len`). -/
def byteLen : List Char → Nat
  | [] => 0
  | c :: s => lenUtf8 c + byteLen s

/-- First loop of `StringUtils::substring` (`proxy.rs` lines 71-84): walk
the character iterator until `char_pos == start` or the iterator is
exhausted, accumulating `byte_start`.  Returns the accumulated byte offset
together with the state of the iterator at the break. -/
def skipChars : Nat → List Char → Nat × List Char
  | 0, it => (0, it)
  | _ + 1, [] => (0, [])
  | n + 1, c :: it =>
    let r := skipChars n it
    (lenUtf8 c + r.1, r.2)

/-- Second loop of `StringUtils::substring` (`proxy.rs` lines 85-97):
continue the same iterator until `char_pos == len` or exhaustion,
accumulating the number of bytes added to `byte_end`. -/
def takeBytesCount : Nat → List Char → Nat
  | 0, _ => 0
  | _ + 1, [] => 0
  | n + 1, c :: it => lenUtf8 c + takeBytesCount n it

/-- Model of dropping exactly `n` leading UTF-8 bytes from a string.
`none` models a Rust slicing panic: the byte index is past the end or
falls strictly inside a character's encoding. -/
def dropBytes : List Char → Nat → Option (List Char)
  | s, 0 => some s
  | [], _ + 1 => none
  | c :: s, n + 1 =>
    if lenUtf8 c ≤ n + 1 then dropBytes s (n + 1 - lenUtf8 c) else none

/-- Model of taking exactly `n` leading UTF-8 bytes of a string as
characters; `none` models a Rust slicing panic (index out of range or not
on a character boundary). -/
def takeBytes : List Char → Nat → Option (List Char)
  | _, 0 => some []
  | [], _ + 1 => none
  | c :: s, n + 1 =>
    if lenUtf8 c ≤ n + 1 then (takeBytes s (n + 1 - lenUtf8 c)).map (fun t => c :: t)
    else none

/-- Model of the Rust byte-range slice `&s[a..b]` viewed as characters:
fails (`none`) exactly when Rust would panic (`a > b`, an index beyond the
byte length, or an index inside a character's encoding). -/
def sliceBytes (s : List Char) (a b : Nat) : Option (List Char) :=
  if a ≤ b then (dropBytes s a).bind (fun t => takeBytes t (b - a)) else none

/-- `StringUtils::substring` (`proxy.rs` lines 70-99): compute `byte_start`
by walking `start` characters, `byte_end` by walking `len` further
characters on the same iterator, then return the byte slice
`&self[byte_start..byte_end]`. -/
def substring (s : List Char) (start len : Nat) : Option (List Char) :=
  let p := skipChars start s
  let byteStart := p.1
  let byteEnd := byteStart + takeBytesCount len p.2
  sliceBytes s byteStart byteEnd

theorem skipChars_eq (n : Nat) (s : List Char) :
    skipChars n s = (byteLen (s.take n), s.drop n) := by
  induction n generalizing s with
  | zero => simp [skipChars, byteLen]
  | succ n ih =>
    cases s with
    | nil => simp [skipChars, byteLen]
    | cons c t => simp [skipChars, byteLen, ih]

theorem takeBytesCount_eq (n : Nat) (s : List Char) :
    takeBytesCount n s = byteLen (s.take n) := by
  induction n generalizing s with
  | zero => simp [takeBytesCount, byteLen]
  | succ n ih =>
    cases s with
    | nil => simp [takeBytesCount, byteLen]
    | cons c t => simp [takeBytesCount, byteLen, ih]

theorem dropBytes_take (s : List Char) (n : Nat) :
    dropBytes s (byteLen (s.take n)) = some (s.drop n) := by
  induction n generalizing s with
  | zero => simp [byteLen, dropBytes]
  | succ n ih =>
    cases s with
    | nil => simp [byteLen, dropBytes]
    | cons c t =>
      have hpos := lenUtf8_pos c
      have hb : byteLen ((c :: t).take (n + 1)) = lenUtf8 c + byteLen (t.take n) := by
        simp [byteLen]
      obtain ⟨k, hk⟩ : ∃ k, lenUtf8 c + byteLen (t.take n) = k + 1 :=
        ⟨lenUtf8 c + byteLen (t.take n) - 1, by omega⟩
      rw [hb, hk]
      simp only [dropBytes]
      rw [if_pos (by omega)]
      have h2 : k + 1 - lenUtf8 c = byteLen (t.take n) := by omega
      rw [h2]
      simpa using ih t

theorem takeBytes_take (s : List Char) (n : Nat) :
    takeBytes s (byteLen (s.take n)) = some (s.take n) := by
  induction n generalizing s with
  | zero => simp [byteLen, takeBytes]
  | succ n ih =>
    cases s with
    | nil => simp [byteLen, takeBytes]
    | cons c t =>
      have hpos := lenUtf8_pos c
      have hb : byteLen ((c :: t).take (n + 1)) = lenUtf8 c + byteLen (t.take n) := by
        simp [byteLen]
      obtain ⟨k, hk⟩ : ∃ k, lenUtf8 c + byteLen (t.take n) = k + 1 :=
        ⟨lenUtf8 c + byteLen (t.take n) - 1, by omega⟩
      rw [hb, hk]
      simp only [takeBytes]
      rw [if_pos (by omega)]
      have h2 : k + 1 - lenUtf8 c = byteLen (t.take n) := by omega
      rw [h2, ih t]
      simp

/-- The central substring lemma: the byte-offset computation always lands
on character boundaries, so `substring` succeeds on every input and
returns the characters from position `start`, at most `len` of them. -/
theorem substring_eq (s : List Char) (start len : Nat) :
    substring s start len = some ((s.drop start).take len) := by
  unfold substring sliceBytes
  rw [skipChars_eq]
  simp only
  rw [takeBytesCount_eq, if_pos (Nat.le_add_right _ _), Nat.add_sub_cancel_left,
    dropBytes_take]
  simpa using takeBytes_take (s.drop start) len

/-- C1: for every paragraph text `T` and character offsets `(s, l)` with
`s + l ≤` the character length of `T`, `substring T s l` returns exactly
`l` characters starting at character position `s`; positions and lengths
are counted in code points (one list entry per character, whatever its
UTF-8 byte width), not bytes. -/
theorem c1_substring_exact_chars (s : List Char) (start len : Nat)
    (h : start + len ≤ s.length) :
    ∃ r, substring s start len = some r ∧ r.length = len ∧
      ∀ i, i < len → r[i]? = s[start + i]? := by
  refine ⟨(s.drop start).take len, substring_eq s start len, ?_, ?_⟩
  · rw [List.length_take, List.length_drop]
    omega
  · intro i hi
    rw [List.getElem?_take_of_lt hi, List.getElem?_drop]

theorem c1_witness :
    2 + 2 ≤ ("aé€cd".toList).length ∧
      (∃ r, substring ("aé€cd".toList) 2 2 = some r ∧ r.length = 2 ∧
        ∀ i, i < 2 → r[i]? = ("aé€cd".toList)[2 + i]?) :=
  ⟨by decide, c1_substring_exact_chars ("aé€cd".toList) 2 2 (by decide)⟩

/-- C2: for every text `T`, start and length — including when
`start + len` exceeds the character length of `T` — `substring` never
panics: the internal byte-range indexing is always valid (`some`), and the
result is the possibly empty or truncated run of characters from position
`start` up to at most the end of `T`. -/
theorem c2_substring_never_panics (s : List Char) (start len : Nat) :
    substring s start len = some ((s.drop start).take len) ∧
      (substring s start len).isSome = true := by
  refine ⟨substring_eq s start len, ?_⟩
  rw [substring_eq s start len]
  rfl

/-! ## The range form of the slicer (`StringUtils::slice`, lines 100-114) -/

/-- Model of Rust `Bound<usize>` as produced by `RangeBounds`. -/
inductive RBound where
  | included : Nat → RBound
  | excluded : Nat → RBound
  | unbounded : RBound

/-- The `start` computation of `StringUtils::slice` (lines 101-104): an
included or excluded start bound both yield the bound itself; an unbounded
start yields 0. -/
def startOfBound : RBound → Nat
  | .included b => b
  | .excluded b => b
  | .unbounded => 0

/-- The end-position computation of `StringUtils::slice` (lines 107-111):
inclusive end is `bound + 1`, exclusive end is `bound`, and an unbounded
end is `self.len()` — the BYTE length of the string. -/
def stopOfBound (s : List Char) : RBound → Nat
  | .included b => b + 1
  | .excluded b => b
  | .unbounded => byteLen s

/-- `StringUtils::slice` (lines 100-114): `substring start (stop - start)`.
The `usize` subtraction `stop - start` underflows when `stop < start`;
`none` models that arithmetic failure. -/
def slice (s : List Char) (lo hi : RBound) : Option (List Char) :=
  let st := startOfBound lo
  let en := stopOfBound s hi
  if st ≤ en then substring s st (en - st) else none

/-- C7: the range form of the slicer supports both end-bound conventions:
an exclusive end `s..e` behaves as `substring T s (e - s)` and an
inclusive end `s..=e` behaves as `substring T s (e + 1 - s)`, mapping both
upstream offset conventions onto the same character-based substring. -/
theorem c7_slice_end_bounds (s : List Char) (a e : Nat) (h : a ≤ e) :
    slice s (.included a) (.excluded e) = substring s a (e - a) ∧
      slice s (.included a) (.included e) = substring s a (e + 1 - a) := by
  constructor
  · unfold slice
    simp only [startOfBound, stopOfBound]
    rw [if_pos h]
  · unfold slice
    simp only [startOfBound, stopOfBound]
    rw [if_pos (by omega)]

theorem c7_witness :
    1 ≤ 2 ∧
      (slice ("abcd".toList) (.included 1) (.excluded 2) =
          substring ("abcd".toList) 1 (2 - 1) ∧
        slice ("abcd".toList) (.included 1) (.included 2) =
          substring ("abcd".toList) 1 (2 + 1 - 1)) :=
  ⟨by decide, c7_slice_end_bounds ("abcd".toList) 1 2 (by decide)⟩

/-- C10: in the range form of the slicer an excluded start bound is
treated identically to an included one (`Bound::Included(bound) |
Bound::Excluded(bound) => *bound`): slicing from `Bound.excluded b` gives
the same result as slicing from `Bound.included b`, so there is no truly
exclusive start-bound convention. -/
theorem c10_excluded_start_eq_included (s : List Char) (b : Nat) (hi : RBound) :
    slice s (.excluded b) hi = slice s (.included b) hi := rfl

/-! ## Post-id extraction from a path segment (`split('-').last()`) -/

/-- Model of Rust `str::split(sep)` collected into a list: splits on every
occurrence of the separator, keeping empty components; the empty string
yields `[""]`, and every string yields at least one component. -/
def splitOn (sep : Char) : List Char → List (List Char)
  | [] => [[]]
  | c :: s =>
    if c = sep then [] :: splitOn sep s
    else
      match splitOn sep s with
      | [] => [[c]]
      | t :: ts => (c :: t) :: ts

/-- The id-extraction step of `by_top_level_post` (line 174) and `page`
(line 191): `path.split('-').last()`. -/
def extractPostId (s : List Char) : Option (List Char) :=
  (splitOn '-' s).getLast?

/-- Specification-side definition, following the spec's words: "the text
after the last `-`".  If the tail still contains the separator, the answer
comes from the tail; otherwise, if the head is the separator, the answer
is everything after it; otherwise the head belongs to the answer (so a
segment without the separator is returned whole). -/
def specAfterLast (sep : Char) : List Char → List Char
  | [] => []
  | c :: s =>
    if sep ∈ s then specAfterLast sep s
    else if c = sep then s
    else c :: specAfterLast sep s

theorem splitOn_ne_nil (sep : Char) (s : List Char) : splitOn sep s ≠ [] := by
  cases s with
  | nil => simp [splitOn]
  | cons c t =>
    simp only [splitOn]
    split
    · simp
    · split
      · simp
      · simp

theorem splitOn_of_not_mem (sep : Char) (t : List Char) (h : sep ∉ t) :
    splitOn sep t = [t] := by
  induction t with
  | nil => simp [splitOn]
  | cons d r ih =>
    have hd : ¬ d = sep := fun he => h (by simp [he])
    have hr : sep ∉ r := fun hm => h (List.mem_cons_of_mem _ hm)
    simp [splitOn, hd, ih hr]

theorem two_le_splitOn_of_mem (sep : Char) (t : List Char) (h : sep ∈ t) :
    2 ≤ (splitOn sep t).length := by
  induction t with
  | nil => simp at h
  | cons d r ih =>
    by_cases hd : d = sep
    · subst hd
      have hsp : splitOn d (d :: r) = [] :: splitOn d r := by simp [splitOn]
      rw [hsp, List.length_cons]
      have := List.length_pos.mpr (splitOn_ne_nil d r)
      omega
    · have hr : sep ∈ r := by
        rcases List.mem_cons.mp h with h1 | h1
        · exact absurd h1.symm hd
        · exact h1
      simp only [splitOn, if_neg hd]
      rcases hsp : splitOn sep r with _ | ⟨u, us⟩
      · exact absurd hsp (splitOn_ne_nil sep r)
      · have := ih hr
        rw [hsp] at this
        simp only [List.length_cons] at this ⊢
        omega

theorem specAfterLast_of_not_mem (sep : Char) (t : List Char) (h : sep ∉ t) :
    specAfterLast sep t = t := by
  induction t with
  | nil => rfl
  | cons d r ih =>
    have hd : ¬ d = sep := fun he => h (by simp [he])
    have hr : sep ∉ r := fun hm => h (List.mem_cons_of_mem _ hm)
    simp [specAfterLast, hd, hr, ih hr]

/-- The last component of `splitOn` is exactly the text after the last
separator. -/
theorem getLast?_splitOn (sep : Char) (s : List Char) :
    (splitOn sep s).getLast? = some (specAfterLast sep s) := by
  induction s with
  | nil => simp [splitOn, specAfterLast]
  | cons c t ih =>
    by_cases hc : c = sep
    · subst hc
      have hsp : splitOn c (c :: t) = [] :: splitOn c t := by simp [splitOn]
      rw [hsp]
      rcases h : splitOn c t with _ | ⟨u, us⟩
      · exact absurd h (splitOn_ne_nil c t)
      · rw [List.getLast?_cons_cons, ← h, ih]
        by_cases hmem : c ∈ t
        · simp [specAfterLast, hmem]
        · simp [specAfterLast, hmem, specAfterLast_of_not_mem c t hmem]
    · have hsp : splitOn sep (c :: t) =
          match splitOn sep t with
          | [] => [[c]]
          | u :: us => (c :: u) :: us := by
        simp [splitOn, hc]
      rcases h : splitOn sep t with _ | ⟨u, us⟩
      · exact absurd h (splitOn_ne_nil sep t)
      · rw [hsp, h]
        cases us with
        | nil =>
          have hmem : sep ∉ t := by
            intro hcon
            have h2 := two_le_splitOn_of_mem sep t hcon
            rw [h] at h2
            simp at h2
          have hu : u = t := by
            have := splitOn_of_not_mem sep t hmem
            rw [h] at this
            simpa using this
          have hmemc : sep ∉ c :: t := by
            intro hm
            rcases List.mem_cons.mp hm with h1 | h1
            · exact hc h1.symm
            · exact hmem h1
          rw [specAfterLast_of_not_mem sep (c :: t) hmemc]
          simp [hu]
        | cons v vs =>
          have hmem : sep ∈ t := by
            by_contra hcon
            have := splitOn_of_not_mem sep t hcon
            rw [h] at this
            simp at this
          rw [List.getLast?_cons_cons]
          rw [h, List.getLast?_cons_cons] at ih
          rw [ih]
          simp [specAfterLast, hmem]

/-- C3: for every path segment the extracted post id is the text after
the last `-` (the final component of splitting on `-`); a segment with no
`-` is used whole; and the two concrete examples from the spec. -/
theorem c3_extract_post_id :
    (∀ s, extractPostId s = some (specAfterLast '-' s)) ∧
      (∀ s, '-' ∉ s → extractPostId s = some s) ∧
      extractPostId ("big-data-small-effort-b62607a43a8c".toList) =
        some ("b62607a43a8c".toList) ∧
      extractPostId ("noDashHere".toList) = some ("noDashHere".toList) := by
  refine ⟨fun s => getLast?_splitOn '-' s, fun s h => ?_, by decide, by decide⟩
  rw [extractPostId, getLast?_splitOn, specAfterLast_of_not_mem '-' s h]

theorem c3_witness :
    '-' ∉ ("noDashHere".toList) ∧
      extractPostId ("noDashHere".toList) = some ("noDashHere".toList) :=
  ⟨by decide, c3_extract_post_id.2.1 ("noDashHere".toList) (by decide)⟩

/-! ## Route templates and `str::replace` (`routes` module, lines 31-60) -/

/-- Model of Rust `str::replace(pat, rep)`: replace every non-overlapping
occurrence of `pat`, scanning left to right; replaced text is not
rescanned.  An empty pattern matches at every character boundary, as in
Rust. -/
def replaceAll (pat rep : List Char) : List Char → List Char
  | [] => if pat = [] then rep else []
  | c :: rest =>
    if hpat : pat = [] then rep ++ c :: replaceAll pat rep rest
    else if pat.isPrefixOf (c :: rest) then
      rep ++ replaceAll pat rep ((c :: rest).drop pat.length)
    else c :: replaceAll pat rep rest
termination_by s => s.length
decreasing_by
  all_goals simp only [List.length_drop, List.length_cons]
  all_goals try omega
  all_goals
    have hp : 0 < pat.length := List.length_pos.mpr hpat
    omega

theorem replaceAll_nil (pat rep : List Char) (h : pat ≠ []) :
    replaceAll pat rep [] = [] := by
  unfold replaceAll
  rw [if_neg h]

/-- One-step unfolding equation for `replaceAll` on a nonempty text. -/
theorem replaceAll_cons (pat rep : List Char) (c : Char) (rest : List Char) :
    replaceAll pat rep (c :: rest) =
      if pat = [] then rep ++ c :: replaceAll pat rep rest
      else if pat.isPrefixOf (c :: rest) then
        rep ++ replaceAll pat rep ((c :: rest).drop pat.length)
      else c :: replaceAll pat rep rest := by
  conv_lhs => unfold replaceAll
  by_cases h : pat = [] <;> simp [h]

/-- A match at the head of the scanned text is replaced, and scanning
resumes after the match (the replacement is not rescanned). -/
theorem replaceAll_head_match (pat rep tail : List Char) (h : pat ≠ []) :
    replaceAll pat rep (pat ++ tail) = rep ++ replaceAll pat rep tail := by
  rcases pat with _ | ⟨p, ps⟩
  · exact absurd rfl h
  · have hpre : (p :: ps).isPrefixOf ((p :: ps) ++ tail) = true := by
      rw [List.isPrefixOf_iff_prefix]
      exact List.prefix_append _ _
    rw [List.cons_append, replaceAll_cons]
    rw [if_neg (by simp), ← List.cons_append, if_pos hpre, List.drop_left]

/-- Characters that can never begin a match are copied unchanged. -/
theorem replaceAll_skip (rep w tail : List Char) (p0 : Char) (ps : List Char)
    (hw : ∀ c ∈ w, c ≠ p0) :
    replaceAll (p0 :: ps) rep (w ++ tail) = w ++ replaceAll (p0 :: ps) rep tail := by
  induction w with
  | nil => simp
  | cons c w ih =>
    have hc : c ≠ p0 := hw c (by simp)
    have hnp : (p0 :: ps).isPrefixOf (c :: (w ++ tail)) = false := by
      simp only [List.isPrefixOf, Bool.and_eq_false_iff]
      left
      simp [Ne.symm hc]
    rw [List.cons_append, replaceAll_cons, if_neg (by simp), if_neg (by simp [hnp])]
    rw [ih fun x hx => hw x (by simp [hx])]
    simp

/-- Decidable check that `pat` matches at no position of `s`. -/
def noOccur (pat : List Char) : List Char → Bool
  | [] => true
  | c :: rest => !(pat.isPrefixOf (c :: rest)) && noOccur pat rest

theorem replaceAll_of_noOccur (pat rep s : List Char) (hpat : pat ≠ [])
    (h : noOccur pat s = true) : replaceAll pat rep s = s := by
  induction s with
  | nil => exact replaceAll_nil pat rep hpat
  | cons c rest ih =>
    simp only [noOccur, Bool.and_eq_true, Bool.not_eq_true'] at h
    rw [replaceAll_cons, if_neg hpat, if_neg (by simp [h.1]), ih h.2]

/-- The page route template `"/{username}/{post}"` (line 45). -/
def routePage : List Char := "/{username}/{post}".toList

/-- The asset route template `"/asset/medium/{name}"` (line 46). -/
def routeAsset : List Char := "/asset/medium/{name}".toList

/-- `routes::Proxy::get_page` (lines 50-54): substitute the username and
post slug into the page route template. -/
def get_page (username post : List Char) : List Char :=
  replaceAll ("{post}".toList) post
    (replaceAll ("{username}".toList) username routePage)

/-- `routes::Proxy::get_medium_asset` (lines 56-58). -/
def get_medium_asset (asset_name : List Char) : List Char :=
  replaceAll ("{name}".toList) asset_name routeAsset

def patUserTail : List Char := "username".toList ++ ['\x7d']

def patPostTail : List Char := "post".toList ++ ['\x7d']

theorem get_page_eq (u p : List Char) (hu : ('\x7b' : Char) ∉ u) :
    get_page u p = '/' :: (u ++ '/' :: p) := by
  have hpat1 : ("{username}".toList : List Char) = '\x7b' :: patUserTail := by
    decide
  have hpat2 : ("{post}".toList : List Char) = '\x7b' :: patPostTail := by decide
  have step1 : replaceAll ("{username}".toList) u routePage =
      '/' :: (u ++ "/{post}".toList) := by
    have e1 : routePage =
        ['/'] ++ (("{username}".toList : List Char) ++ "/{post}".toList) := by decide
    rw [e1, hpat1]
    rw [replaceAll_skip u ['/']
      (('\x7b' :: patUserTail) ++ "/{post}".toList) '\x7b'
      (patUserTail) (by decide)]
    rw [replaceAll_head_match ('\x7b' :: patUserTail) u ("/{post}".toList)
      (by simp)]
    rw [replaceAll_of_noOccur ('\x7b' :: patUserTail) u ("/{post}".toList)
      (by simp) (by decide)]
    simp
  have step2 : replaceAll ("{post}".toList) p ('/' :: (u ++ "/{post}".toList)) =
      '/' :: (u ++ '/' :: p) := by
    have e0 : ("/{post}".toList : List Char) = '/' :: "{post}".toList := by decide
    have e2 : '/' :: (u ++ "/{post}".toList) =
        (('/' :: u) ++ ['/']) ++ (("{post}".toList : List Char) ++ []) := by
      rw [e0]
      simp
    rw [e2, hpat2]
    rw [replaceAll_skip p (('/' :: u) ++ ['/'])
      (('\x7b' :: patPostTail) ++ []) '\x7b' (patPostTail) ?hw]
    case hw =>
      intro c hc
      rcases List.mem_append.mp hc with hc1 | hc1
      · rcases List.mem_cons.mp hc1 with hc2 | hc2
        · subst hc2
          decide
        · exact fun he => hu (he ▸ hc2)
      · have hc2 : c = '/' := by simpa using hc1
        subst hc2
        decide
    rw [replaceAll_head_match ('\x7b' :: patPostTail) p [] (by simp)]
    rw [replaceAll_nil ('\x7b' :: patPostTail) p (by simp)]
    simp
  unfold get_page
  rw [step1, step2]

/-! ## Redirect handlers (`by_post_id`, lines 159-170; `by_top_level_post`,
lines 172-187) -/

/-- The light post metadata returned by the external
`data.get_post_light` call: username and slug only. -/
structure PostLight where
  username : List Char
  slug : List Char
deriving DecidableEq

/-- Minimal model of the HTTP responses produced by the redirect handlers:
`found loc` is `HttpResponse::Found()` with a `Location: loc` header;
`notFound` is the `HttpResponse::NotFound()` branch. -/
inductive TopResp where
  | found : List Char → TopResp
  | notFound : TopResp
deriving DecidableEq

/-- `by_post_id` (lines 160-170): resolve the path id through the light
metadata fetch (abstracted as `light`) and answer 302 Found with the
canonical page path as `Location`. -/
def by_post_id (light : List Char → PostLight) (post : List Char) : TopResp :=
  TopResp.found (get_page (light post).username (light post).slug)

/-- `by_top_level_post` (lines 173-187): extract the id after the last
dash; on success redirect exactly like `by_post_id`, otherwise 404. -/
def by_top_level_post (light : List Char → PostLight) (seg : List Char) : TopResp :=
  match extractPostId seg with
  | some pid => TopResp.found (get_page (light pid).username (light pid).slug)
  | none => TopResp.notFound

/-- C5: for every post id whose light metadata resolves to a username and
slug, `/utils/post/{id}` answers an HTTP redirect whose `Location` is the
canonical page path `/username/slug` built from them (provided the
username does not itself contain the placeholder character `\x7b`); and
for the id `7158b1cdd50c`, whose light metadata the spec reports as
`@tylerneely` / `fear-and-loathing-in-lock-free-programming-7158b1cdd50c`,
the `Location` is exactly
`/@tylerneely/fear-and-loathing-in-lock-free-programming-7158b1cdd50c`. -/
theorem c5_by_post_id_location :
    (∀ (light : List Char → PostLight) (post : List Char),
        ('\x7b' : Char) ∉ (light post).username →
        by_post_id light post =
          TopResp.found ('/' :: ((light post).username ++ '/' :: (light post).slug))) ∧
      (∀ light : List Char → PostLight,
        light ("7158b1cdd50c".toList) =
            ⟨"@tylerneely".toList,
              "fear-and-loathing-in-lock-free-programming-7158b1cdd50c".toList⟩ →
        by_post_id light ("7158b1cdd50c".toList) =
          TopResp.found
            ("/@tylerneely/fear-and-loathing-in-lock-free-programming-7158b1cdd50c".toList)) := by
  constructor
  · intro light post hu
    unfold by_post_id
    rw [get_page_eq _ _ hu]
  · intro light hl
    unfold by_post_id
    rw [hl]
    rw [get_page_eq _ _ (by decide)]
    decide

theorem c5_witness :
    by_post_id
        (fun _ => (⟨"@tylerneely".toList,
          "fear-and-loathing-in-lock-free-programming-7158b1cdd50c".toList⟩ : PostLight))
        ("7158b1cdd50c".toList) =
      TopResp.found
        ("/@tylerneely/fear-and-loathing-in-lock-free-programming-7158b1cdd50c".toList) :=
  c5_by_post_id_location.2
    (fun _ => (⟨"@tylerneely".toList,
      "fear-and-loathing-in-lock-free-programming-7158b1cdd50c".toList⟩ : PostLight))
    rfl

/-! ## Date formatting (`page`, lines 224-227)

The source formats `Utc.timestamp_millis(post_data.created_at)` with the
fixed chrono format string `"%b %e, %Y"`.  chrono is an external
collaborator; its documented behaviour is modelled here: epoch
milliseconds are floor-divided into days, the days are converted to a
proleptic-Gregorian UTC calendar date, and the three directives render as
abbreviated English month name (`%b`), space-padded day of month (`%e`)
and four-digit zero-padded year (`%Y`, for years 0-9999). -/

/-- Gregorian leap-year rule. -/
def isLeap (y : Nat) : Bool := y % 4 = 0 && (y % 100 != 0 || y % 400 = 0)

def yearLen (y : Nat) : Nat := if isLeap y then 366 else 365

theorem yearLen_ge (y : Nat) : 365 ≤ yearLen y := by
  unfold yearLen
  split <;> omega

/-- Walk years forward from `y`, consuming `d` remaining days; returns the
final year and the 0-based ordinal day within it. -/
def yearFrom (y d : Nat) : Nat × Nat :=
  if d < yearLen y then (y, d) else yearFrom (y + 1) (d - yearLen y)
termination_by d
decreasing_by
  have := yearLen_ge y
  omega

/-- Month lengths, January to December. -/
def monthLens (leap : Bool) : List Nat :=
  [31, if leap then 29 else 28, 31, 30, 31, 30, 31, 31, 30, 31, 30, 31]

/-- Walk the month-length table, consuming the 0-based ordinal day;
returns the 1-based month and day of month. -/
def monthFrom (m : Nat) : List Nat → Nat → Nat × Nat
  | [], d => (m, d + 1)
  | len :: rest, d => if d < len then (m, d + 1) else monthFrom (m + 1) rest (d - len)

def monthDay (leap : Bool) (ord : Nat) : Nat × Nat := monthFrom 1 (monthLens leap) ord

/-- Days since the epoch (1970-01-01) to a proleptic-Gregorian
`(year, month, day)`.  The 400-year cycle (146097 days) is peeled off
first so that negative day counts are handled too; the Gregorian leap
pattern repeats every 400 years, so shifting by whole cycles is exact. -/
def civilFromDays (days : Int) : Int × Nat × Nat :=
  let e := Int.fdiv days 146097
  let r := (days - 146097 * e).toNat
  let yo := yearFrom 1970 r
  let md := monthDay (isLeap yo.1) yo.2
  ((yo.1 : Int) + 400 * e, md.1, md.2)

/-- UTC calendar date of an epoch-milliseconds timestamp
(`Utc.timestamp_millis`): floor-divide into days, then convert. -/
def civilFromMillis (ms : Int) : Int × Nat × Nat :=
  civilFromDays (Int.fdiv ms 86400000)

/-- The fixed table of `%b` abbreviated English month names. -/
def monthAbbrs : List (List Char) :=
  ["Jan".toList, "Feb".toList, "Mar".toList, "Apr".toList, "May".toList,
    "Jun".toList, "Jul".toList, "Aug".toList, "Sep".toList, "Oct".toList,
    "Nov".toList, "Dec".toList]

def monthName (m : Nat) : List Char := monthAbbrs.getD (m - 1) ("???".toList)

def digitChar (n : Nat) : Char := Char.ofNat (48 + n)

/-- `%e`: day of month, space-padded to width 2. -/
def dayStr (d : Nat) : List Char :=
  if d < 10 then [' ', digitChar d] else [digitChar (d / 10), digitChar (d % 10)]

/-- `%Y`: the year, zero-padded to four digits for years 0-9999 (the
fallback for out-of-range years is plain decimal). -/
def yearStr (y : Int) : List Char :=
  if 0 ≤ y ∧ y < 10000 then
    [digitChar (y.toNat / 1000), digitChar (y.toNat / 100 % 10),
      digitChar (y.toNat / 10 % 10), digitChar (y.toNat % 10)]
  else (toString y).toList

/-- Lines 224-227: the formatted date string
`Utc.timestamp_millis(created_at).format("%b %e, %Y").to_string()`. -/
def dateString (ms : Int) : List Char :=
  let c := civilFromMillis ms
  monthName c.2.1 ++ (" ".toList) ++ dayStr c.2.2 ++ (", ".toList) ++ yearStr c.1

/-! ## The page handler data model and `page` (lines 190-254)

The upstream data shapes (`crate::data`) are modelled with exactly the
fields `proxy.rs` reads: paragraph type tag, optional iframe data with an
optional media resource URL, and an optional preview image with an
optional id. -/

structure MediumResource where
  href : List Char
deriving DecidableEq

structure IframeData where
  media_resource : Option MediumResource
deriving DecidableEq

structure Paragraph where
  type_ : List Char
  iframe : Option IframeData
deriving DecidableEq

structure PreviewImage where
  id : Option (List Char)
deriving DecidableEq

structure BodyModel where
  paragraphs : List Paragraph
deriving DecidableEq

structure PostContent where
  body_model : BodyModel
deriving DecidableEq

/-- The full post response fetched by `data.get_post`, restricted to the
fields the `page` handler reads. -/
structure PostResp where
  content : PostContent
  created_at : Int
  preview_image : Option PreviewImage
deriving DecidableEq

/-- Model of Rust `str::contains(needle)` for string needles. -/
def containsStr (hay needle : List Char) : Bool :=
  match hay with
  | [] => needle.isEmpty
  | c :: t => needle.isPrefixOf (c :: t) || containsStr t needle

def gistNeedle : List Char := "gist.github.com".toList

/-- The gist-collecting loop of `page` (lines 201-216): for each
paragraph of type `IFRAME`, unwrap its iframe data and media resource
(`none` models the `unwrap` panic when either is absent) and, when the
resource URL contains `gist.github.com`, record the URL for which a
`data.get_gist` future is pushed.  Returns the ordered list of fetch
URLs. -/
def gistFuts : List Paragraph → Option (List (List Char))
  | [] => some []
  | p :: ps =>
    if p.type_ = "IFRAME".toList then
      match p.iframe with
      | none => none
      | some ifr =>
        match ifr.media_resource with
        | none => none
        | some mr =>
          if containsStr mr.href gistNeedle then
            (gistFuts ps).map (fun l => mr.href :: l)
          else gistFuts ps
    else gistFuts ps

/-- A paragraph that qualifies for an embed fetch: type `IFRAME`, iframe
and media resource present, and the URL contains the gist domain. -/
def isGistPara (p : Paragraph) : Bool :=
  decide (p.type_ = "IFRAME".toList) &&
    (match p.iframe with
     | some ifr =>
       match ifr.media_resource with
       | some mr => containsStr mr.href gistNeedle
       | none => false
     | none => false)

/-- Lines 217-222: `None` when no futures were collected (no join is
performed), otherwise `Some(join_all(futs).await)`.  Awaiting the joined
futures is modelled by applying `fetch` to every collected URL, in
order. -/
def pageGists {G : Type} (fetch : List Char → G) (ps : List Paragraph) :
    Option (Option (List G)) :=
  (gistFuts ps).map (fun futs => if futs = [] then none else some (futs.map fetch))

/-- The fields of the `Post` template context assembled by `page` that
this development tracks (`proxy.rs` lines 240-248). -/
structure PageOut (G : Type) where
  id : List Char
  gists : Option (List G)
  date : List Char
  preview_img : List Char

/-- Outcome of the `page` handler: the 400 branch, a Rust panic (a failed
`unwrap`), or the assembled document. -/
inductive PageResult (G : Type) where
  | badRequest : PageResult G
  | panic : PageResult G
  | ok : PageOut G → PageResult G

/-- The preview-image step of `page` (lines 229-236 together with the
final assembly, lines 240-253): unwrap the preview image and its id —
`panic` models the failed `unwrap` when either is absent — resolve it to
an asset URL, and assemble the template context. -/
def previewStep {G : Type} (id : List Char) (gists : Option (List G))
    (date : List Char) : Option PreviewImage → PageResult G
  | none => PageResult.panic
  | some pimg =>
    match pimg.id with
    | none => PageResult.panic
    | some pid => PageResult.ok ⟨id, gists, date, get_medium_asset pid⟩

/-- The stages of `page` after the post fetch (lines 197-253): the
collected gist futures (`panic` when the collecting loop panicked), the
`gists` field (`None` without a join when no futures, else the joined
results), the formatted date, then the preview step. -/
def postStages {G : Type} (fetch : List Char → G) (id : List Char)
    (post : PostResp) : Option (List (List Char)) → PageResult G
  | none => PageResult.panic
  | some futs =>
    previewStep id (if futs = [] then none else some (futs.map fetch))
      (dateString post.created_at) post.preview_image

/-- The `page` handler (lines 190-254): extract the id after the last
dash (400 if `None`), fetch the post (`get_post`, external), and run the
remaining stages. -/
def page {G : Type} (get_post : List Char → PostResp) (fetch : List Char → G)
    (seg : List Char) : PageResult G :=
  match extractPostId seg with
  | none => PageResult.badRequest
  | some id =>
    postStages fetch id (get_post id)
      (gistFuts (get_post id).content.body_model.paragraphs)

theorem page_some {G : Type} (get_post : List Char → PostResp)
    (fetch : List Char → G) (seg id : List Char)
    (hid : extractPostId seg = some id) :
    page get_post fetch seg =
      postStages fetch id (get_post id)
        (gistFuts (get_post id).content.body_model.paragraphs) := by
  unfold page
  rw [hid]

/-- When the collecting loop completes without panicking, it collects one
URL per qualifying paragraph. -/
theorem gistFuts_length (ps : List Paragraph) (urls : List (List Char))
    (h : gistFuts ps = some urls) :
    urls.length = (ps.filter isGistPara).length := by
  induction ps generalizing urls with
  | nil =>
    have h2 := Option.some_inj.mp h.symm
    subst h2
    simp
  | cons p ps ih =>
    by_cases ht : p.type_ = "IFRAME".toList
    · rcases hif : p.iframe with _ | ifr
      · simp [gistFuts, ht, hif] at h
      · rcases hmr : ifr.media_resource with _ | mr
        · simp [gistFuts, ht, hif, hmr] at h
        · by_cases hg : containsStr mr.href gistNeedle
          · simp only [gistFuts, if_pos ht, hif, hmr, if_pos hg] at h
            rcases ho : gistFuts ps with _ | l
            · rw [ho] at h
              simp at h
            · rw [ho] at h
              simp at h
              subst h
              have hq : isGistPara p = true := by
                unfold isGistPara
                rw [decide_eq_true ht, hif]
                simp [hmr, hg]
              simp [hq, ih l ho]
          · simp only [gistFuts, if_pos ht, hif, hmr, if_neg hg] at h
            have hq : isGistPara p = false := by
              unfold isGistPara
              rw [hif]
              simp [hmr, hg]
            simp [hq, ih urls h]
    · simp only [gistFuts, if_neg ht] at h
      have hq : isGistPara p = false := by
        unfold isGistPara
        rw [decide_eq_false ht]
        simp
      simp [hq, ih urls h]

/-- C4: in the `page` handler, a post with zero qualifying gist-embed
paragraphs produces no embed fetches — the collected URL list is empty
and the `gists` field is `None`, with no join performed — while a post
with `N` qualifying paragraphs issues exactly `N` fetches, and all `N`
results are awaited (joined, in order) into the `gists` field of the
assembled document. -/
theorem c4_gist_fanout {G : Type} (get_post : List Char → PostResp)
    (fetch : List Char → G) (seg id : List Char) (urls : List (List Char))
    (hid : extractPostId seg = some id)
    (h : gistFuts (get_post id).content.body_model.paragraphs = some urls) :
    urls.length =
        (((get_post id).content.body_model.paragraphs).filter isGistPara).length ∧
      (urls = [] →
        pageGists fetch (get_post id).content.body_model.paragraphs = some none) ∧
      (urls ≠ [] →
        pageGists fetch (get_post id).content.body_model.paragraphs =
            some (some (urls.map fetch)) ∧
          (urls.map fetch).length = urls.length) ∧
      (∀ out, page get_post fetch seg = PageResult.ok out →
        out.gists = if urls = [] then none else some (urls.map fetch)) := by
  refine ⟨gistFuts_length _ _ h, ?_, ?_, ?_⟩
  · intro hnil
    unfold pageGists
    rw [h, hnil]
    simp
  · intro hne
    unfold pageGists
    rw [h]
    simp [hne]
  · intro out hout
    rw [page_some get_post fetch seg id hid, h] at hout
    simp only [postStages] at hout
    rcases hpi : (get_post id).preview_image with _ | pimg
    · rw [hpi] at hout
      simp [previewStep] at hout
    · rw [hpi] at hout
      simp only [previewStep] at hout
      rcases hpid : pimg.id with _ | pid
      · rw [hpid] at hout
        simp at hout
      · rw [hpid] at hout
        have hout2 : PageResult.ok
            (⟨id, if urls = [] then none else some (urls.map fetch),
              dateString (get_post id).created_at, get_medium_asset pid⟩ : PageOut G) =
            PageResult.ok out := hout
        rw [PageResult.ok.injEq] at hout2
        rw [← hout2]

def gistUrl : List Char := "https://gist.github.com/x/1".toList

def gistPara : Paragraph :=
  { type_ := "IFRAME".toList, iframe := some ⟨some ⟨gistUrl⟩⟩ }

def gistPost : PostResp :=
  { content := ⟨⟨[gistPara]⟩⟩, created_at := 0,
    preview_image := some ⟨some ("img".toList)⟩ }

theorem c4_witness :
    [gistUrl].length =
        ((gistPost.content.body_model.paragraphs).filter isGistPara).length ∧
      ([gistUrl] = [] →
        pageGists (fun s : List Char => s) gistPost.content.body_model.paragraphs =
          some none) ∧
      ([gistUrl] ≠ [] →
        pageGists (fun s : List Char => s) gistPost.content.body_model.paragraphs =
            some (some ([gistUrl].map (fun s => s))) ∧
          ([gistUrl].map (fun s : List Char => s)).length = [gistUrl].length) ∧
      (∀ out,
        page (fun _ => gistPost) (fun s : List Char => s) ("x".toList) =
          PageResult.ok out →
        out.gists =
          if [gistUrl] = [] then none else some ([gistUrl].map (fun s => s))) :=
  c4_gist_fanout (fun _ => gistPost) (fun s => s) ("x".toList) ("x".toList)
    [gistUrl] (by decide) (by decide)

/-- C6 counterexample: the claim asserts that some path segment makes the
id-extraction step fail, but `split('-').last()` is `some` on every
input (even the empty segment yields `some ""`), so no such segment
exists. -/
theorem c6_counterexample : ¬ ∃ s : List Char, extractPostId s = none := by
  rintro ⟨s, hs⟩
  unfold extractPostId at hs
  rw [getLast?_splitOn] at hs
  exact Option.noConfusion hs

/-- C6 (amended): the id-extraction step never fails — for every path
segment `split('-').last()` yields `some` id (possibly the empty string) —
so the `page` handler's 400 branch and `by_top_level_post`'s 404 branch
are unreachable and the handlers always proceed with the extracted id. -/
theorem c6_amended_no_failing_segment :
    (∀ s : List Char, ∃ id, extractPostId s = some id) ∧
      (∀ (G : Type) (get_post : List Char → PostResp) (fetch : List Char → G)
        (seg : List Char), page get_post fetch seg ≠ PageResult.badRequest) ∧
      (∀ (light : List Char → PostLight) (seg : List Char),
        by_top_level_post light seg ≠ TopResp.notFound) := by
  have hx : ∀ s : List Char, extractPostId s = some (specAfterLast '-' s) := by
    intro s
    unfold extractPostId
    exact getLast?_splitOn '-' s
  refine ⟨fun s => ⟨_, hx s⟩, ?_, ?_⟩
  · intro G get_post fetch seg
    rw [page_some get_post fetch seg _ (hx seg)]
    cases hgf : gistFuts
        (get_post (specAfterLast '-' seg)).content.body_model.paragraphs with
    | none => simp [postStages]
    | some futs =>
      simp only [postStages]
      cases hpi : (get_post (specAfterLast '-' seg)).preview_image with
      | none => simp [previewStep]
      | some pimg =>
        simp only [previewStep]
        cases hpid : pimg.id <;> simp
  · intro light seg
    unfold by_top_level_post
    rw [hx seg]
    simp

theorem c6_witness :
    (∃ id, extractPostId ([] : List Char) = some id) ∧
      by_top_level_post (fun _ => PostLight.mk [] []) [] ≠ TopResp.notFound :=
  ⟨c6_amended_no_failing_segment.1 [],
    c6_amended_no_failing_segment.2.2 (fun _ => PostLight.mk [] []) []⟩

/-- C9: the `page` handler requires the fetched post to carry a preview
image with an id: when the `preview_image` field is absent, or present
with an absent id, the `unwrap` panics and no HTTP response is produced;
`page` yields a response only under the precondition that a preview-image
id exists, and the assembled `preview_img` is its asset URL. -/
theorem c9_preview_image_required {G : Type} (get_post : List Char → PostResp)
    (fetch : List Char → G) (seg id : List Char)
    (hid : extractPostId seg = some id) :
    (((get_post id).preview_image = none ∨
        ∃ pimg, (get_post id).preview_image = some pimg ∧ pimg.id = none) →
      ∀ out, page get_post fetch seg ≠ PageResult.ok out) ∧
      (∀ out, page get_post fetch seg = PageResult.ok out →
        ∃ pimg pid, (get_post id).preview_image = some pimg ∧
          pimg.id = some pid ∧ out.preview_img = get_medium_asset pid) := by
  constructor
  · intro habs out hcon
    rw [page_some get_post fetch seg id hid] at hcon
    cases hgf : gistFuts (get_post id).content.body_model.paragraphs with
    | none =>
      rw [hgf] at hcon
      simp [postStages] at hcon
    | some futs =>
      rw [hgf] at hcon
      simp only [postStages] at hcon
      rcases habs with habs | ⟨pimg, hpi, hpid⟩
      · rw [habs] at hcon
        simp [previewStep] at hcon
      · rw [hpi] at hcon
        simp only [previewStep] at hcon
        rw [hpid] at hcon
        simp at hcon
  · intro out hout
    rw [page_some get_post fetch seg id hid] at hout
    cases hgf : gistFuts (get_post id).content.body_model.paragraphs with
    | none =>
      rw [hgf] at hout
      simp [postStages] at hout
    | some futs =>
      rw [hgf] at hout
      simp only [postStages] at hout
      rcases hpi : (get_post id).preview_image with _ | pimg
      · rw [hpi] at hout
        simp [previewStep] at hout
      · rw [hpi] at hout
        simp only [previewStep] at hout
        rcases hpid : pimg.id with _ | pid
        · rw [hpid] at hout
          simp at hout
        · rw [hpid] at hout
          have hout2 : PageResult.ok
              (⟨id, if futs = [] then none else some (futs.map fetch),
                dateString (get_post id).created_at,
                get_medium_asset pid⟩ : PageOut G) =
              PageResult.ok out := hout
          rw [PageResult.ok.injEq] at hout2
          refine ⟨pimg, pid, ?_, hpid, by rw [← hout2]⟩
          first
            | exact hpi
            | rfl

def noPreviewPost : PostResp :=
  { content := ⟨⟨[]⟩⟩, created_at := 0, preview_image := none }

theorem c9_witness :
    page (fun _ => noPreviewPost) (fun s : List Char => s) ("x".toList) ≠
      PageResult.ok ⟨[], none, [], []⟩ :=
  (c9_preview_image_required (fun _ => noPreviewPost) (fun s => s) ("x".toList)
      ("x".toList) (by decide)).1 (Or.inl rfl) ⟨[], none, [], []⟩

/-! ## C8: shape of the formatted date -/

/-- The ordinal-day output of `yearFrom` always lies within the final
year. -/
theorem yearFrom_snd_lt (y d : Nat) :
    (yearFrom y d).2 < yearLen (yearFrom y d).1 := by
  induction d using Nat.strong_induction_on generalizing y with
  | _ d ih =>
    unfold yearFrom
    split
    · rename_i hlt
      simpa using hlt
    · rename_i hge
      have hpos := yearLen_ge y
      exact ih (d - yearLen y) (by omega) (y + 1)

theorem yearFrom_fst_le (y d : Nat) : (yearFrom y d).1 ≤ y + d / 365 := by
  induction d using Nat.strong_induction_on generalizing y with
  | _ d ih =>
    unfold yearFrom
    split
    · simp
    · rename_i hge
      have h365 := yearLen_ge y
      have h1 : (yearFrom (y + 1) (d - yearLen y)).1 ≤ (y + 1) + (d - yearLen y) / 365 :=
        ih (d - yearLen y) (by omega) (y + 1)
      have h2 : (d - yearLen y) / 365 ≤ (d - 365) / 365 :=
        Nat.div_le_div_right (by omega)
      have h3 : d / 365 = (d - 365) / 365 + 1 :=
        Nat.div_eq_sub_div (by omega) (by omega)
      omega

theorem le_yearFrom_fst (y d : Nat) : y ≤ (yearFrom y d).1 := by
  induction d using Nat.strong_induction_on generalizing y with
  | _ d ih =>
    unfold yearFrom
    split
    · simp
    · rename_i hge
      have h365 := yearLen_ge y
      have := ih (d - yearLen y) (by omega) (y + 1)
      omega

set_option maxRecDepth 8000 in
theorem monthDay_range_true (o : Nat) (h : o < 366) :
    1 ≤ (monthDay true o).1 ∧ (monthDay true o).1 ≤ 12 ∧
      1 ≤ (monthDay true o).2 ∧ (monthDay true o).2 ≤ 31 := by
  revert o h
  decide

set_option maxRecDepth 8000 in
theorem monthDay_range_false (o : Nat) (h : o < 365) :
    1 ≤ (monthDay false o).1 ∧ (monthDay false o).1 ≤ 12 ∧
      1 ≤ (monthDay false o).2 ∧ (monthDay false o).2 ≤ 31 := by
  revert o h
  decide

theorem monthName_mem (m : Nat) (h1 : 1 ≤ m) (h2 : m ≤ 12) :
    monthName m ∈ monthAbbrs ∧ (monthName m).length = 3 := by
  interval_cases m <;> exact ⟨by decide, by decide⟩

/-- C8: for every post creation timestamp in epoch milliseconds (in the
verified range 1970-01-01 to 2099-12-31), the formatted date string is
produced by the single fixed format: the abbreviated month name from the
fixed 12-entry table, a space, the space-padded day of month (1-31), a
comma and space, and the four-digit year — the same shape for every input
timestamp. -/
theorem c8_date_format (ms : Int) (h0 : 0 ≤ ms) (h1 : ms < 4102444800000) :
    ∃ y m d, civilFromMillis ms = (y, m, d) ∧
      1 ≤ m ∧ m ≤ 12 ∧ 1 ≤ d ∧ d ≤ 31 ∧
      (1970 : Int) ≤ y ∧ y ≤ 2100 ∧
      monthName m ∈ monthAbbrs ∧ (monthName m).length = 3 ∧
      (yearStr y).length = 4 ∧
      dateString ms =
        monthName m ++ (" ".toList) ++ dayStr d ++ (", ".toList) ++ yearStr y := by
  obtain ⟨n, rfl⟩ : ∃ n : Nat, ms = (n : Int) := ⟨ms.toNat, (Int.toNat_of_nonneg h0).symm⟩
  have hn : n < 4102444800000 := by exact_mod_cast h1
  have hdays : Int.fdiv (n : Int) 86400000 = ((n / 86400000 : Nat) : Int) :=
    (Int.ofNat_fdiv n 86400000).symm
  have hnd_lt : n / 86400000 < 47482 :=
    (Nat.div_lt_iff_lt_mul (by norm_num)).mpr (by omega)
  have he : Int.fdiv ((n / 86400000 : Nat) : Int) 146097 =
      (((n / 86400000) / 146097 : Nat) : Int) :=
    (Int.ofNat_fdiv (n / 86400000) 146097).symm
  have hciv : civilFromMillis (n : Int) =
      (((yearFrom 1970 (n / 86400000)).1 : Int),
        (monthDay (isLeap (yearFrom 1970 (n / 86400000)).1)
          (yearFrom 1970 (n / 86400000)).2).1,
        (monthDay (isLeap (yearFrom 1970 (n / 86400000)).1)
          (yearFrom 1970 (n / 86400000)).2).2) := by
    unfold civilFromMillis civilFromDays
    rw [hdays, he, Nat.div_eq_of_lt (show n / 86400000 < 146097 by omega)]
    simp only [Nat.cast_zero, mul_zero, sub_zero, add_zero, Int.toNat_natCast]
  have hYge : 1970 ≤ (yearFrom 1970 (n / 86400000)).1 := le_yearFrom_fst _ _
  have hYle : (yearFrom 1970 (n / 86400000)).1 ≤ 2100 := by
    have h1 := yearFrom_fst_le 1970 (n / 86400000)
    have h2 : (n / 86400000) / 365 ≤ 47481 / 365 := Nat.div_le_div_right (by omega)
    have h3 : 47481 / 365 = 130 := by norm_num
    omega
  have hOlt : (yearFrom 1970 (n / 86400000)).2 <
      yearLen (yearFrom 1970 (n / 86400000)).1 := yearFrom_snd_lt _ _
  have hmd : 1 ≤ (monthDay (isLeap (yearFrom 1970 (n / 86400000)).1)
        (yearFrom 1970 (n / 86400000)).2).1 ∧
      (monthDay (isLeap (yearFrom 1970 (n / 86400000)).1)
        (yearFrom 1970 (n / 86400000)).2).1 ≤ 12 ∧
      1 ≤ (monthDay (isLeap (yearFrom 1970 (n / 86400000)).1)
        (yearFrom 1970 (n / 86400000)).2).2 ∧
      (monthDay (isLeap (yearFrom 1970 (n / 86400000)).1)
        (yearFrom 1970 (n / 86400000)).2).2 ≤ 31 := by
    cases hb : isLeap (yearFrom 1970 (n / 86400000)).1 with
    | false =>
      have h365 : yearLen (yearFrom 1970 (n / 86400000)).1 = 365 := by
        unfold yearLen
        rw [hb]
        rfl
      exact monthDay_range_false _ (by omega)
    | true =>
      have h366 : yearLen (yearFrom 1970 (n / 86400000)).1 = 366 := by
        unfold yearLen
        rw [hb]
        rfl
      exact monthDay_range_true _ (by omega)
  have hys : (yearStr ((yearFrom 1970 (n / 86400000)).1 : Int)).length = 4 := by
    unfold yearStr
    rw [if_pos ⟨by omega, by exact_mod_cast Nat.lt_of_le_of_lt hYle (by norm_num)⟩]
    rfl
  obtain ⟨hm1, hm2, hd1, hd2⟩ := hmd
  have hmn := monthName_mem _ hm1 hm2
  refine ⟨_, _, _, hciv, hm1, hm2, hd1, hd2, by exact_mod_cast hYge,
    by exact_mod_cast hYle, hmn.1, hmn.2, hys, ?_⟩
  unfold dateString
  rw [hciv]

theorem c8_witness :
    (0 : Int) ≤ 0 ∧
      (∃ y m d, civilFromMillis 0 = (y, m, d) ∧
        1 ≤ m ∧ m ≤ 12 ∧ 1 ≤ d ∧ d ≤ 31 ∧
        (1970 : Int) ≤ y ∧ y ≤ 2100 ∧
        monthName m ∈ monthAbbrs ∧ (monthName m).length = 3 ∧
        (yearStr y).length = 4 ∧
        dateString 0 =
          monthName m ++ (" ".toList) ++ dayStr d ++ (", ".toList) ++ yearStr y) :=
  ⟨le_refl 0, c8_date_format 0 (by decide) (by decide)⟩

end LibMedium
